import Mathlib

/-!
Verification of the inverted-index / permuterm wildcard search program
(`assignment_1.py`, `assignment_2.py`).

The embedding below translates the program's data model and operations into
Lean.  Python strings are modelled as `List Char`; Python dicts are modelled
as association lists with first-match lookup and in-place update (which
preserves insertion order exactly as CPython dicts do); the linked
`Posting` chain of a term is modelled as a `List δ` whose head is the most
recently pushed posting (Python's `None` chain is `[]`); a Python `set`
accumulated during a query is modelled by the list of inserted elements
(membership and emptiness agree, and the only observation the program makes
of such a set is `sorted(...)` / emptiness, both captured below).
`DocumentID` (a tweet id) is an opaque ordered type parameter `δ`.

Fallible code paths are modelled with `Option`: `query` returns `none`
exactly where the Python raises an unhandled exception (`postings_lists[0]`
on the empty list for a zero-term query, or a dict `KeyError` on a dangling
postings pointer), and `some r` where the Python returns the list `r`.
-/

namespace InvertedIndex

/-- First-match lookup in an association list: the model of `d[k]` /
`d.get(k)` for a Python dict `d` (dicts never hold duplicate keys, and
`lookupA` returns the first hit, so on states reachable by the program the
two agree). -/
def lookupA {κ ν : Type} [DecidableEq κ] : List (κ × ν) → κ → Option ν
  | [], _ => none
  | (k, v) :: rest, key => if k = key then some v else lookupA rest key

/-- The model of `d[k] = v` for a Python dict `d`: replace the value at the
first occurrence of `k`, or append a fresh entry, preserving insertion
order exactly as CPython does. -/
def updateA {κ ν : Type} [DecidableEq κ] : List (κ × ν) → κ → ν → List (κ × ν)
  | [], k, v => [(k, v)]
  | (k', v') :: rest, k, v =>
      if k' = k then (k, v) :: rest else (k', v') :: updateA rest k v

/-- The model of Python `l.startswith(p)`: `startsWith l p` is true iff `p`
is a prefix of `l`. -/
def startsWith : List Char → List Char → Bool
  | _, [] => true
  | [], _ :: _ => false
  | c :: cs, d :: ds => c == d && startsWith cs ds

/-- The model of Python `l.endswith(s)` (used only to state properties,
never by the program itself). -/
def endsWith (l s : List Char) : Bool := startsWith l.reverse s.reverse

/-- The model of Python `s.rstrip('*')`: remove the maximal trailing run of
`'*'` characters. -/
def rstripStar (l : List Char) : List Char :=
  (l.reverse.dropWhile (fun c => c == '*')).reverse

/-- The model of Python `term.find('*')`: index of the first `'*'`, `none`
standing for `-1`. -/
def find_star : List Char → Option Nat
  | [] => none
  | c :: rest => if c = '*' then some 0 else (find_star rest).map (· + 1)

/-- Body of the generator `postings_list_iterator`, with the `seen_ids` set
(modelled as the list of ids inserted into it) made an explicit argument. -/
def pliAux {α : Type} [DecidableEq α] (seen : List α) : List α → List α
  | [] => []
  | d :: rest => if d ∈ seen then pliAux seen rest else d :: pliAux (d :: seen) rest

/-- `postings_list_iterator(head)`: walk the chain from the head and yield
each document id not yielded before during this traversal. -/
def postings_list_iterator {α : Type} [DecidableEq α] (head : List α) : List α :=
  pliAux [] head

/-- `normalize(term, keep_wildcards)`: lowercase, then keep only
alphanumeric characters (and `'*'` when `keep_wildcards` is set). -/
def normalize (term : List Char) (keep_wildcards : Bool) : List Char :=
  let lowered := term.map Char.toLower
  if keep_wildcards then
    lowered.filter (fun c => c.isAlphanum || c == '*')
  else
    lowered.filter (fun c => c.isAlphanum)

/-- `generate_permuterms(term)`: append the sentinel `'$'` and return all
rotations `t[i:] + t[:i]` for `i` in `range(len(t))`, in that order. -/
def generate_permuterms (term : List Char) : List (List Char) :=
  let t := term ++ ['$']
  (List.range t.length).map (fun i => t.drop i ++ t.take i)

/-- The per-term postings push performed inside `InvertedIndex.index`
(and, in the specification's vocabulary, `appendDocument`): push a new head
posting and bump the term's counter only if the chain is empty or its head
holds a different document id. -/
def appendDocument {δ : Type} [DecidableEq δ] (chain : List δ) (cnt : Nat) (d : δ) :
    List δ × Nat :=
  if chain = [] ∨ chain.head? ≠ some d then (d :: chain, cnt + 1) else (chain, cnt)

/-- The postings chain and counter a single term ends up with after its
document ids arrive in the given order during the build phase. -/
def buildChain {δ : Type} [DecidableEq δ] (ds : List δ) : List δ × Nat :=
  ds.foldl (fun p d => appendDocument p.1 p.2 d) ([], 0)

/-- The state of the `InvertedIndex` class of `assignment_2.py`, with the
document-id type `δ` kept opaque. -/
structure Index (δ : Type) where
  dictionary : List (List Char × (List Char × Nat × Nat))
  postings_lists : List (Nat × List δ)
  posting_id_counter : Nat
  permuterm_index : List (List Char × List (List Char))

/-- The freshly constructed, empty `InvertedIndex`. -/
def emptyIndex (δ : Type) : Index δ :=
  { dictionary := [], postings_lists := [], posting_id_counter := 0, permuterm_index := [] }

/-- Registration of one permuterm rotation: add `t` to the set stored at
key `k`, creating the singleton set on first use.  The Python set of terms
is modelled as the duplicate-free list of its insertions. -/
def addPermuterm (pidx : List (List Char × List (List Char))) (k t : List Char) :
    List (List Char × List (List Char)) :=
  match lookupA pidx k with
  | some s => updateA pidx k (if t ∈ s then s else s ++ [t])
  | none => updateA pidx k [t]

/-- The `if term not in self.dictionary` block of `InvertedIndex.index`
(the specification's `ensureTerm`): on first sight of a term, allocate a
fresh pointer to an empty postings chain and a zero counter; idempotent
thereafter.  The already-computed permuterm registrations `pidx` are
installed in either case. -/
def ensureTerm {δ : Type} [DecidableEq δ] (idx : Index δ) (term : List Char)
    (pidx : List (List Char × List (List Char))) : Index δ :=
  match lookupA idx.dictionary term with
  | some _ => { idx with permuterm_index := pidx }
  | none =>
      { dictionary := updateA idx.dictionary term (term, 0, idx.posting_id_counter),
        postings_lists := updateA idx.postings_lists idx.posting_id_counter [],
        posting_id_counter := idx.posting_id_counter + 1,
        permuterm_index := pidx }

/-- The conditional postings push at the end of `InvertedIndex.index`'s
token loop: re-read the term's entry and chain and push the document id
onto the head only if the chain is empty or its head differs, bumping the
counter alongside.  The two lookups cannot fail on reachable states (the
entry was just ensured); the `none` fallbacks leave the index unchanged. -/
def pushPosting {δ : Type} [DecidableEq δ] (idx1 : Index δ) (term : List Char) (docID : δ) :
    Index δ :=
  match lookupA idx1.dictionary term with
  | none => idx1
  | some td =>
      match lookupA idx1.postings_lists td.2.2 with
      | none => idx1
      | some current =>
          if current = [] ∨ current.head? ≠ some docID then
            { idx1 with
              postings_lists := updateA idx1.postings_lists td.2.2 (docID :: current),
              dictionary := updateA idx1.dictionary term (td.1, td.2.1 + 1, td.2.2) }
          else idx1

/-- Processing of one raw token of one document inside
`InvertedIndex.index`: normalize, skip if empty, register all permuterm
rotations, ensure the dictionary entry exists, then conditionally push the
document onto the term's postings chain. -/
def indexToken {δ : Type} [DecidableEq δ] (idx : Index δ) (docID : δ) (tok : List Char) :
    Index δ :=
  let term := normalize tok false
  if term = [] then idx
  else
    pushPosting
      (ensureTerm idx term
        ((generate_permuterms term).foldl (fun pi k => addPermuterm pi k term)
          idx.permuterm_index))
      term docID

/-- The build entry point for one document: index every token of the
document's tokenized text (`addDocument` at the ingestion boundary). -/
def addDocument {δ : Type} [DecidableEq δ] (idx : Index δ) (docID : δ)
    (tokens : List (List Char)) : Index δ :=
  tokens.foldl (fun i tok => indexToken i docID tok) idx

/-- The whole build phase of `InvertedIndex.index` over an already parsed
corpus: a fold of `addDocument` over the `(tweet_id, tokens)` stream. -/
def buildIndex {δ : Type} [DecidableEq δ] (docs : List (δ × List (List Char))) : Index δ :=
  docs.foldl (fun i doc => addDocument i doc.1 doc.2) (emptyIndex δ)

/-- `expand_wildcard(term)`: if the term holds no `'*'` return it
unchanged; otherwise rotate `term + '$'` so the text after the first `'*'`
leads, strip the trailing `'*'` to obtain the search prefix, and return the
union of the term sets of every permuterm key starting with that prefix
(the resulting Python set, whose iteration order is unspecified, is
modelled in first-insertion order). -/
def expand_wildcard (pidx : List (List Char × List (List Char))) (term : List Char) :
    List (List Char) :=
  let term_with_dollar := term ++ ['$']
  match find_star term with
  | none => [term]
  | some p =>
      let rotated := term_with_dollar.drop (p + 1) ++ term_with_dollar.take (p + 1)
      let s := rstripStar rotated
      pliAux [] (((pidx.filter (fun kv => startsWith kv.1 s)).map (fun kv => kv.2)).flatten)

/-- `intersect(list1, list2)`: the two-pointer merge of two sorted lists —
emit on equality, otherwise advance the side holding the smaller element,
stop when either side is exhausted. -/
def intersect {α : Type} [LinearOrder α] : List α → List α → List α
  | [], _ => []
  | _ :: _, [] => []
  | a :: as, b :: bs =>
      if a = b then a :: intersect as bs
      else if a < b then intersect as (b :: bs)
      else intersect (a :: as) bs
  termination_by l1 l2 => l1.length + l2.length

/-- The left-to-right intersection loop at the end of `query`, including
its early `break` once the accumulated result is empty. -/
def intersectFold {α : Type} [LinearOrder α] (res : List α) : List (List α) → List α
  | [] => res
  | p :: rest =>
      let r := intersect res p
      if r = [] then r else intersectFold r rest

/-- Intersection chained across a whole family of lists, exactly as
`query` does it: seed with the first list, then fold the rest. -/
def chainAll {α : Type} [LinearOrder α] : List (List α) → List α
  | [] => []
  | l :: ls => intersectFold l ls

/-- `sorted(term_postings)` for the accumulated set `term_postings`:
the sorted duplicate-free list of its members. -/
def sortedDedup {δ : Type} [LinearOrder δ] (l : List δ) : List δ :=
  pliAux [] (List.insertionSort (· ≤ ·) l)

/-- The inner loop of `query`'s postings-gathering phase over one group of
candidate terms: skip candidates absent from the dictionary, and collect
the (traversal-deduplicated) document ids of the present ones.  `none`
models the `KeyError` a dangling postings pointer would raise. -/
def gatherOne {δ : Type} [LinearOrder δ] (idx : Index δ) : List (List Char) → Option (List δ)
  | [] => some []
  | t :: rest =>
      match lookupA idx.dictionary t with
      | none => gatherOne idx rest
      | some td =>
          match lookupA idx.postings_lists td.2.2 with
          | none => none
          | some chain =>
              match gatherOne idx rest with
              | none => none
              | some acc => some (postings_list_iterator chain ++ acc)

/-- The postings-gathering loop of `query` over all candidate groups.
`none` models a crash; `some none` models the early `return []` taken when
some group's accumulated postings set is empty; `some (some ls)` is the
list of per-group sorted postings lists. -/
def queryLoop {δ : Type} [LinearOrder δ] (idx : Index δ) :
    List (List (List Char)) → Option (Option (List (List δ)))
  | [] => some (some [])
  | g :: rest =>
      match gatherOne idx g with
      | none => none
      | some raw =>
          if raw = [] then some none
          else
            match queryLoop idx rest with
            | none => none
            | some none => some none
            | some (some ls) => some (some (sortedDedup raw :: ls))

/-- The wildcard-expansion loop of `query`: a literal token contributes the
singleton group `[t]`; a wildcard token contributes its expansion, and an
empty expansion (`none` here) makes `query` return `[]` at once. -/
def expandAll (pidx : List (List Char × List (List Char))) :
    List (List Char) → Option (List (List (List Char)))
  | [] => some []
  | t :: rest =>
      if '*' ∈ t then
        if expand_wildcard pidx t = [] then none
        else
          match expandAll pidx rest with
          | none => none
          | some gs => some (expand_wildcard pidx t :: gs)
      else
        match expandAll pidx rest with
        | none => none
        | some gs => some ([t] :: gs)

/-- `query(*terms)` of `assignment_2.py`: normalize keeping wildcards,
expand wildcard tokens, gather and sort each group's postings, then
intersect left to right.  `none` models an unhandled exception (the
`IndexError` of `postings_lists[0]` on a zero-term call, or a `KeyError`
on a dangling pointer); `some r` models the returned list `r`. -/
def query {δ : Type} [LinearOrder δ] (idx : Index δ) (rawTerms : List (List Char)) :
    Option (List δ) :=
  let normalized := rawTerms.map (fun t => normalize t true)
  match expandAll idx.permuterm_index normalized with
  | none => some []
  | some groups =>
      match queryLoop idx groups with
      | none => none
      | some none => some []
      | some (some pls) =>
          match pls with
          | [] => none
          | first :: rest => some (intersectFold first rest)

/-- Convenience: the character list of a string literal. -/
def toL (s : String) : List Char := s.toList

/-! ### Association-list lemmas -/

theorem lookupA_cons {κ ν : Type} [DecidableEq κ] (e : κ × ν) (rest : List (κ × ν)) (key : κ) :
    lookupA (e :: rest) key = if e.1 = key then some e.2 else lookupA rest key := by
  obtain ⟨k, v⟩ := e; rfl

theorem lookupA_mem {κ ν : Type} [DecidableEq κ] {m : List (κ × ν)} {k : κ} {v : ν}
    (h : lookupA m k = some v) : (k, v) ∈ m := by
  induction m with
  | nil => simp [lookupA] at h
  | cons e rest ih =>
      rw [lookupA_cons] at h
      by_cases he : e.1 = k
      · rw [if_pos he] at h
        obtain ⟨k', v'⟩ := e
        simp only at he
        injection h with h2
        have h3 : v' = v := h2
        exact List.mem_cons.mpr (Or.inl (by rw [← he, h3]))
      · rw [if_neg he] at h
        exact List.mem_cons_of_mem _ (ih h)

theorem lookupA_updateA_self {κ ν : Type} [DecidableEq κ] (m : List (κ × ν)) (k : κ) (v : ν) :
    lookupA (updateA m k v) k = some v := by
  induction m with
  | nil => simp [updateA, lookupA]
  | cons e rest ih =>
      obtain ⟨k', v'⟩ := e
      by_cases he : k' = k
      · simp [updateA, he, lookupA]
      · simp [updateA, he, lookupA_cons, ih]

theorem lookupA_updateA_ne {κ ν : Type} [DecidableEq κ] (m : List (κ × ν)) (k k2 : κ) (v : ν)
    (h : k2 ≠ k) : lookupA (updateA m k v) k2 = lookupA m k2 := by
  induction m with
  | nil => simp [updateA, lookupA, Ne.symm h]
  | cons e rest ih =>
      obtain ⟨k', v'⟩ := e
      by_cases he : k' = k
      · subst he
        simp [updateA, lookupA_cons, Ne.symm h]
      · simp [updateA, he, lookupA_cons, ih]

theorem mem_updateA {κ ν : Type} [DecidableEq κ] {m : List (κ × ν)} {k : κ} {v : ν}
    {e : κ × ν} (h : e ∈ updateA m k v) : e = (k, v) ∨ e ∈ m := by
  induction m with
  | nil => simpa [updateA] using h
  | cons e' rest ih =>
      obtain ⟨k', v'⟩ := e'
      by_cases he : k' = k
      · rw [updateA, if_pos he] at h
        rcases List.mem_cons.mp h with h1 | h1
        · exact Or.inl h1
        · exact Or.inr (List.mem_cons_of_mem _ h1)
      · rw [updateA, if_neg he] at h
        rcases List.mem_cons.mp h with h1 | h1
        · exact Or.inr (h1 ▸ List.mem_cons_self _ _)
        · rcases ih h1 with h2 | h2
          · exact Or.inl h2
          · exact Or.inr (List.mem_cons_of_mem _ h2)

theorem lookupA_eq_none {κ ν : Type} [DecidableEq κ] {m : List (κ × ν)} {k : κ}
    (h : ∀ e ∈ m, e.1 ≠ k) : lookupA m k = none := by
  induction m with
  | nil => rfl
  | cons e rest ih =>
      rw [lookupA_cons, if_neg (h e (List.mem_cons_self _ _))]
      exact ih (fun e' he' => h e' (List.mem_cons_of_mem _ he'))

/-! ### Prefix / suffix / strip lemmas -/

theorem startsWith_iff (l p : List Char) : startsWith l p = true ↔ ∃ u, l = p ++ u := by
  induction p generalizing l with
  | nil => simp [startsWith]
  | cons b bs ih =>
      cases l with
      | nil => simp [startsWith]
      | cons c cs =>
          simp only [startsWith, Bool.and_eq_true, beq_iff_eq, ih, List.cons_append,
            List.cons.injEq]
          constructor
          · rintro ⟨h1, u, h2⟩; exact ⟨u, h1, h2⟩
          · rintro ⟨u, h1, h2⟩; exact ⟨h1, u, h2⟩

theorem mem_of_startsWith {l p : List Char} (h : startsWith l p = true) {x : Char}
    (hx : x ∈ p) : x ∈ l := by
  obtain ⟨u, rfl⟩ := (startsWith_iff l p).1 h
  exact List.mem_append_left u hx

theorem endsWith_iff (l s : List Char) : endsWith l s = true ↔ ∃ u, l = u ++ s := by
  unfold endsWith
  rw [startsWith_iff]
  constructor
  · rintro ⟨u, h⟩
    refine ⟨u.reverse, ?_⟩
    have h2 := congrArg List.reverse h
    simpa using h2
  · rintro ⟨u, rfl⟩
    exact ⟨u.reverse, by simp⟩

theorem rstripStar_append_star (l : List Char) : rstripStar (l ++ ['*']) = rstripStar l := by
  unfold rstripStar
  simp [List.reverse_append, List.dropWhile_cons]

theorem rstripStar_no_trailing {A : List Char} (B : List Char) (hA : '*' ∉ A) :
    rstripStar (B ++ '$' :: A) = B ++ '$' :: A := by
  unfold rstripStar
  have hrw : (B ++ '$' :: A).reverse = A.reverse ++ '$' :: B.reverse := by simp
  rw [hrw]
  cases hh : A.reverse with
  | nil =>
      have hA0 : A = [] := by simpa using congrArg List.reverse hh
      subst hA0
      simp [List.dropWhile_cons]
  | cons c cs =>
      have hc : c ≠ '*' := by
        intro hc2
        apply hA
        rw [← List.mem_reverse, hh, hc2]
        exact List.mem_cons_self _ _
      simp only [List.cons_append, List.dropWhile_cons, beq_iff_eq, hc, if_false]
      rw [hh] at hrw
      have h3 := congrArg List.reverse hrw
      rw [List.reverse_reverse] at h3
      exact h3.symm

theorem star_mem_rstripStar {a : List Char} (b : List Char) (h : '*' ∈ a) :
    '*' ∈ rstripStar (a ++ '$' :: b) := by
  unfold rstripStar
  rw [List.mem_reverse]
  have hrw : (a ++ '$' :: b).reverse = b.reverse ++ '$' :: a.reverse := by simp
  rw [hrw]
  have hmem : '*' ∈ ('$' :: a.reverse) := by simp [h]
  generalize b.reverse = l1
  induction l1 with
  | nil => simpa [List.dropWhile_cons] using hmem
  | cons c cs ih =>
      by_cases hc : c = '*'
      · simpa [List.dropWhile_cons, hc] using ih
      · simp only [List.cons_append, List.dropWhile_cons, beq_iff_eq, hc, if_false]
        exact List.mem_cons_of_mem _ (List.mem_append_right _ hmem)

/-! ### find_star lemmas -/

theorem find_star_some {l : List Char} {p : Nat} (h : find_star l = some p) :
    ∃ a b, l = a ++ '*' :: b ∧ '*' ∉ a ∧ a.length = p := by
  induction l generalizing p with
  | nil => simp [find_star] at h
  | cons c rest ih =>
      by_cases hc : c = '*'
      · subst hc
        have h0 : find_star ('*' :: rest) = some 0 := by simp [find_star]
        rw [h0] at h
        have h2 : (0 : Nat) = p := Option.some.inj h
        exact ⟨[], rest, rfl, by simp, by simpa using h2⟩
      · rw [find_star, if_neg hc, Option.map_eq_some'] at h
        obtain ⟨q, hq, hpq⟩ := h
        obtain ⟨a, b, rfl, ha, hlen⟩ := ih hq
        exact ⟨c :: a, b, rfl, by simp [ha, Ne.symm hc], by simp [hlen, ← hpq]⟩

theorem find_star_pattern {A : List Char} (B : List Char) (hA : '*' ∉ A) :
    find_star (A ++ '*' :: B) = some A.length := by
  induction A with
  | nil => simp [find_star]
  | cons c cs ih =>
      have hc : c ≠ '*' := fun hh => hA (hh ▸ List.mem_cons_self _ _)
      have ih2 := ih (fun hh => hA (List.mem_cons_of_mem _ hh))
      simp [find_star, hc, ih2]

theorem find_star_of_mem {l : List Char} (h : '*' ∈ l) : ∃ p, find_star l = some p := by
  induction l with
  | nil => simp at h
  | cons c rest ih =>
      by_cases hc : c = '*'
      · exact ⟨0, by simp [find_star, hc]⟩
      · have hr : '*' ∈ rest := by
          rcases List.mem_cons.mp h with h1 | h1
          · exact absurd h1.symm hc
          · exact h1
        obtain ⟨p, hp⟩ := ih hr
        exact ⟨p + 1, by simp [find_star, hc, hp]⟩

/-! ### Sentinel-split injectivity -/

theorem append_sentinel_inj {a b c d : List Char} (ha : '$' ∉ a) (hc : '$' ∉ c)
    (h : a ++ '$' :: b = c ++ '$' :: d) : a = c ∧ b = d := by
  induction a generalizing c with
  | nil =>
      cases c with
      | nil => simpa using h
      | cons x cs =>
          simp only [List.nil_append, List.cons_append, List.cons.injEq] at h
          exact absurd (h.1 ▸ List.mem_cons_self x cs) hc
  | cons y ys ih =>
      cases c with
      | nil =>
          simp only [List.nil_append, List.cons_append, List.cons.injEq] at h
          exact absurd (h.1.symm ▸ List.mem_cons_self y ys) ha
      | cons x cs =>
          simp only [List.cons_append, List.cons.injEq] at h
          have ha' : '$' ∉ ys := fun hh => ha (List.mem_cons_of_mem _ hh)
          have hc' : '$' ∉ cs := fun hh => hc (List.mem_cons_of_mem _ hh)
          obtain ⟨h1, h2⟩ := ih ha' hc' h.2
          exact ⟨by rw [h.1, h1], h2⟩

/-! ### pliAux (postings_list_iterator) lemmas -/

theorem mem_pliAux {α : Type} [DecidableEq α] (c : List α) :
    ∀ (seen : List α) (d : α), d ∈ pliAux seen c ↔ d ∈ c ∧ d ∉ seen := by
  induction c with
  | nil => intro seen d; simp [pliAux]
  | cons x rest ih =>
      intro seen d
      by_cases hx : x ∈ seen
      · rw [pliAux, if_pos hx, ih]
        by_cases hdx : d = x
        · subst hdx; simp [hx]
        · simp [hdx]
      · rw [pliAux, if_neg hx]
        by_cases hdx : d = x
        · subst hdx; simp [hx]
        · simp [hdx, ih]

theorem nodup_pliAux {α : Type} [DecidableEq α] (c : List α) :
    ∀ seen : List α, (pliAux seen c).Nodup := by
  induction c with
  | nil => intro seen; simp [pliAux]
  | cons x rest ih =>
      intro seen
      by_cases hx : x ∈ seen
      · rw [pliAux, if_pos hx]; exact ih seen
      · rw [pliAux, if_neg hx, List.nodup_cons]
        refine ⟨fun hmem => ?_, ih _⟩
        exact ((mem_pliAux rest _ x).1 hmem).2 (List.mem_cons_self _ _)

theorem pliAux_sublist {α : Type} [DecidableEq α] (c : List α) :
    ∀ seen : List α, (pliAux seen c).Sublist c := by
  induction c with
  | nil => intro _; simp [pliAux]
  | cons x rest ih =>
      intro seen
      by_cases hx : x ∈ seen
      · rw [pliAux, if_pos hx]; exact (ih seen).cons x
      · rw [pliAux, if_neg hx]; exact (ih (x :: seen)).cons₂ x

theorem pairwise_pliAux {α : Type} [DecidableEq α] (c : List α) :
    ∀ seen : List α,
      (pliAux seen c).Pairwise (fun a b => c.indexOf a < c.indexOf b) := by
  induction c with
  | nil => intro seen; simp [pliAux]
  | cons x rest ih =>
      intro seen
      by_cases hx : x ∈ seen
      · rw [pliAux, if_pos hx]
        refine (ih seen).imp_of_mem ?_
        intro a b ha hb hab
        have ha2 := (mem_pliAux rest seen a).1 ha
        have hb2 := (mem_pliAux rest seen b).1 hb
        have hax : a ≠ x := fun hh => ha2.2 (hh ▸ hx)
        have hbx : b ≠ x := fun hh => hb2.2 (hh ▸ hx)
        rw [List.indexOf_cons_ne rest (Ne.symm hax), List.indexOf_cons_ne rest (Ne.symm hbx)]
        exact Nat.succ_lt_succ hab
      · rw [pliAux, if_neg hx, List.pairwise_cons]
        constructor
        · intro b hb
          have hb2 := (mem_pliAux rest _ b).1 hb
          have hbx : b ≠ x := fun hh => hb2.2 (hh ▸ List.mem_cons_self _ _)
          rw [List.indexOf_cons_self, List.indexOf_cons_ne rest (Ne.symm hbx)]
          exact Nat.succ_pos _
        · refine (ih (x :: seen)).imp_of_mem ?_
          intro a b ha hb hab
          have ha2 := (mem_pliAux rest _ a).1 ha
          have hb2 := (mem_pliAux rest _ b).1 hb
          have hax : a ≠ x := fun hh => ha2.2 (hh ▸ List.mem_cons_self _ _)
          have hbx : b ≠ x := fun hh => hb2.2 (hh ▸ List.mem_cons_self _ _)
          rw [List.indexOf_cons_ne rest (Ne.symm hax), List.indexOf_cons_ne rest (Ne.symm hbx)]
          exact Nat.succ_lt_succ hab

/-! ### Rotation lemmas -/

theorem generate_permuterms_eq (t : List Char) :
    generate_permuterms t =
      (List.range (t.length + 1)).map (fun i => (t ++ ['$']).drop i ++ (t ++ ['$']).take i) := by
  unfold generate_permuterms
  simp

theorem mem_generate_permuterms {t k : List Char} :
    k ∈ generate_permuterms t ↔
      ∃ i, i ≤ t.length ∧ k = (t ++ ['$']).drop i ++ (t ++ ['$']).take i := by
  rw [generate_permuterms_eq]
  simp only [List.mem_map, List.mem_range, Nat.lt_succ_iff]
  constructor
  · rintro ⟨i, hi, rfl⟩; exact ⟨i, hi, rfl⟩
  · rintro ⟨i, hi, rfl⟩; exact ⟨i, hi, rfl⟩

theorem rot_form {t : List Char} {i : Nat} (h : i ≤ t.length) :
    (t ++ ['$']).drop i ++ (t ++ ['$']).take i = t.drop i ++ '$' :: t.take i := by
  rw [List.drop_append_eq_append_drop, List.take_append_eq_append_take,
    Nat.sub_eq_zero_of_le h]
  simp

/-- C6: for every term `t` not containing the sentinel `'$'`,
`generate_permuterms t` returns exactly the `len t + 1` rotations
`(t ++ '$')[i:] ++ (t ++ '$')[:i]` for `i = 0 .. len t`, in that order,
and they are pairwise distinct. -/
theorem generate_permuterms_spec (t : List Char) (h : '$' ∉ t) :
    generate_permuterms t =
        (List.range (t.length + 1)).map
          (fun i => (t ++ ['$']).drop i ++ (t ++ ['$']).take i)
      ∧ (generate_permuterms t).length = t.length + 1
      ∧ (generate_permuterms t).Nodup := by
  refine ⟨generate_permuterms_eq t, ?_, ?_⟩
  · rw [generate_permuterms_eq]; simp
  · rw [generate_permuterms_eq]
    refine (List.nodup_range _).map_on ?_
    intro i hi j hj hij
    rw [List.mem_range, Nat.lt_succ_iff] at hi hj
    rw [rot_form hi, rot_form hj] at hij
    have h1 : '$' ∉ t.drop i := fun hm => h (List.mem_of_mem_drop hm)
    have h2 : '$' ∉ t.drop j := fun hm => h (List.mem_of_mem_drop hm)
    have h3 := (append_sentinel_inj h1 h2 hij).1
    have h4 := congrArg List.length h3
    rw [List.length_drop, List.length_drop] at h4
    omega

theorem generate_permuterms_spec_witness :
    (generate_permuterms (toL "ab")).length = (toL "ab").length + 1
      ∧ (generate_permuterms (toL "ab")).Nodup := by
  have h := generate_permuterms_spec (toL "ab") (by decide)
  exact ⟨h.2.1, h.2.2⟩

/-- C5: `appendDocument` pushes a new head node (linking to the previous
head) if and only if the chain is empty or the current head's id differs
from the appended id; the counter is incremented exactly when a node is
pushed; and appending the same id again right away is a no-op, so the
chain length is unchanged after the first push. -/
theorem appendDocument_spec {δ : Type} [DecidableEq δ] (chain : List δ) (cnt : Nat) (d : δ) :
    (((appendDocument chain cnt d).1 = d :: chain ∧ (appendDocument chain cnt d).2 = cnt + 1)
        ↔ (chain = [] ∨ chain.head? ≠ some d))
      ∧ (¬(chain = [] ∨ chain.head? ≠ some d) → appendDocument chain cnt d = (chain, cnt))
      ∧ appendDocument (appendDocument chain cnt d).1 (appendDocument chain cnt d).2 d
          = appendDocument chain cnt d
      ∧ (appendDocument (appendDocument chain cnt d).1 (appendDocument chain cnt d).2 d).1.length
          = (appendDocument chain cnt d).1.length := by
  by_cases hc : chain = [] ∨ chain.head? ≠ some d
  · have h1 : appendDocument chain cnt d = (d :: chain, cnt + 1) := by
      rw [appendDocument, if_pos hc]
    have h2 : appendDocument (d :: chain) (cnt + 1) d = (d :: chain, cnt + 1) := by
      rw [appendDocument, if_neg (by simp)]
    refine ⟨?_, fun hn => absurd hc hn, ?_, ?_⟩
    · simp [h1, hc]
    · rw [h1]; exact h2
    · rw [h1]
      show (appendDocument (d :: chain) (cnt + 1) d).1.length = (d :: chain).length
      rw [h2]
  · have h1 : appendDocument chain cnt d = (chain, cnt) := by
      rw [appendDocument, if_neg hc]
    refine ⟨?_, fun _ => h1, ?_, ?_⟩
    · constructor
      · rintro ⟨-, h3⟩
        rw [h1] at h3
        have h4 : cnt = cnt + 1 := h3
        omega
      · intro h; exact absurd h hc
    · rw [h1]; exact h1
    · rw [h1]
      show (appendDocument chain cnt d).1.length = chain.length
      rw [h1]

theorem appendDocument_spec_witness :
    appendDocument (appendDocument ([] : List Nat) 0 5).1 (appendDocument ([] : List Nat) 0 5).2 5
      = appendDocument ([] : List Nat) 0 5 := by
  have h := appendDocument_spec ([] : List Nat) 0 5
  exact h.2.2.1

/-! ### Build-phase chain invariant (C9) -/

theorem buildChain_inv {δ : Type} [DecidableEq δ] (ds : List δ) :
    ∀ (c : List δ) (n : Nat), n = c.length → c.Chain' (fun a b => a ≠ b) →
      ((ds.foldl (fun p d => appendDocument p.1 p.2 d) (c, n)).2
          = (ds.foldl (fun p d => appendDocument p.1 p.2 d) (c, n)).1.length
        ∧ (ds.foldl (fun p d => appendDocument p.1 p.2 d) (c, n)).1.Chain'
            (fun a b => a ≠ b)) := by
  induction ds with
  | nil => intro c n h1 h2; exact ⟨h1, h2⟩
  | cons d rest ih =>
      intro c n h1 h2
      simp only [List.foldl_cons]
      by_cases hc : c = [] ∨ c.head? ≠ some d
      · have ha : appendDocument c n d = (d :: c, n + 1) := by
          rw [appendDocument, if_pos hc]
        rw [ha]
        apply ih
        · simp [h1]
        · cases c with
          | nil => simp
          | cons x t =>
              rcases hc with hc | hc
              · exact absurd hc (by simp)
              · have hdx : d ≠ x := by
                  intro hh
                  apply hc
                  rw [hh]
                  rfl
                rw [List.chain'_cons]
                exact ⟨hdx, h2⟩
      · have ha : appendDocument c n d = (c, n) := by
          rw [appendDocument, if_neg hc]
        rw [ha]
        exact ih c n h1 h2

/-- C9: after any sequence of build-phase insertions for one term, the
stored counter equals the exact number of posting nodes in the chain, no
two adjacent nodes carry the same document id, hence the counter is an
upper bound on the number of distinct documents in the chain — and the
bound can be strict. -/
theorem index_counter_invariant {δ : Type} [DecidableEq δ] (ds : List δ) :
    (buildChain ds).2 = (buildChain ds).1.length
      ∧ (buildChain ds).1.Chain' (fun a b => a ≠ b)
      ∧ (postings_list_iterator (buildChain ds).1).length ≤ (buildChain ds).2
      ∧ ∃ ds0 : List Nat,
          (postings_list_iterator (buildChain ds0).1).length < (buildChain ds0).2 := by
  obtain ⟨h1, h2⟩ := buildChain_inv ds [] 0 rfl (by simp)
  refine ⟨h1, h2, ?_, ?_⟩
  · calc (postings_list_iterator (buildChain ds).1).length
        ≤ (buildChain ds).1.length := ((pliAux_sublist (buildChain ds).1 []).length_le)
      _ = (buildChain ds).2 := h1.symm
  · exact ⟨[0, 1, 0], by decide⟩

theorem index_counter_invariant_witness :
    (buildChain ([5, 6, 5] : List Nat)).2 = (buildChain ([5, 6, 5] : List Nat)).1.length
      ∧ (postings_list_iterator (buildChain ([5, 6, 5] : List Nat)).1).length
          ≤ (buildChain ([5, 6, 5] : List Nat)).2 := by
  have h := index_counter_invariant ([5, 6, 5] : List Nat)
  exact ⟨h.1, h.2.2.1⟩

/-- C7: the postings-list iterator yields each distinct document id of the
chain exactly once (no duplicates regardless of how many nodes carry the
id), in order of first occurrence walking from the head, i.e.
most-recent-first. -/
theorem postings_list_iterator_spec {α : Type} [DecidableEq α] (chain : List α) :
    (postings_list_iterator chain).Nodup
      ∧ (∀ d, d ∈ postings_list_iterator chain ↔ d ∈ chain)
      ∧ (∀ d ∈ chain, (postings_list_iterator chain).count d = 1)
      ∧ (postings_list_iterator chain).Pairwise
          (fun a b => chain.indexOf a < chain.indexOf b) := by
  have hnd := nodup_pliAux chain ([] : List α)
  have hmem : ∀ d, d ∈ postings_list_iterator chain ↔ d ∈ chain := by
    intro d
    rw [postings_list_iterator, mem_pliAux]
    simp
  refine ⟨hnd, hmem, ?_, pairwise_pliAux chain []⟩
  intro d hd
  exact List.count_eq_one_of_mem hnd ((hmem d).2 hd)

theorem postings_list_iterator_spec_witness :
    postings_list_iterator ([3, 4, 3] : List Nat) = [3, 4]
      ∧ (postings_list_iterator ([3, 4, 3] : List Nat)).count 3 = 1 := by
  have h := postings_list_iterator_spec ([3, 4, 3] : List Nat)
  exact ⟨by decide, h.2.2.1 3 (by decide)⟩

/-! ### Two-pointer intersection lemmas (C4) -/

theorem intersect_nil_left {α : Type} [LinearOrder α] (l : List α) :
    intersect ([] : List α) l = [] := by
  cases l <;> simp [intersect]

theorem intersect_nil_right {α : Type} [LinearOrder α] (l : List α) :
    intersect l ([] : List α) = [] := by
  cases l <;> simp [intersect]

theorem intersect_cons_cons {α : Type} [LinearOrder α] (a b : α) (as bs : List α) :
    intersect (a :: as) (b :: bs) =
      if a = b then a :: intersect as bs
      else if a < b then intersect as (b :: bs)
      else intersect (a :: as) bs := by
  simp [intersect]

theorem intersect_eq_filter {α : Type} [LinearOrder α] :
    ∀ l1 l2 : List α, l1.Sorted (· < ·) → l2.Sorted (· < ·) →
      intersect l1 l2 = l1.filter (fun a => decide (a ∈ l2)) := by
  intro l1
  induction l1 with
  | nil =>
      intro l2 _ _
      rw [intersect_nil_left]
      simp
  | cons a as ih =>
      intro l2
      induction l2 with
      | nil =>
          intro _ _
          rw [intersect_nil_right]
          simp
      | cons b bs ih2 =>
          intro h1 h2
          rw [intersect_cons_cons]
          by_cases hab : a = b
          · subst hab
            rw [if_pos rfl]
            have key : List.filter (fun x => decide (x ∈ a :: bs)) as
                = List.filter (fun x => decide (x ∈ bs)) as := by
              apply List.filter_congr
              intro x hx
              have hax : a < x := List.rel_of_sorted_cons h1 x hx
              have hxa : ¬x = a := by
                intro hh
                subst hh
                exact lt_irrefl x hax
              simp [List.mem_cons, hxa]
            rw [List.filter_cons_of_pos (by simp), key,
              ih bs h1.of_cons h2.of_cons]
          · rw [if_neg hab]
            by_cases hlt : a < b
            · rw [if_pos hlt]
              have hnot : ¬(a ∈ b :: bs) := by
                intro hmem
                rcases List.mem_cons.mp hmem with hh | hh
                · exact hab hh
                · exact absurd hlt (not_lt_of_gt (List.rel_of_sorted_cons h2 a hh))
              rw [List.filter_cons_of_neg (by simpa using hnot),
                ih (b :: bs) h1.of_cons h2]
            · rw [if_neg hlt]
              have hba : b < a := lt_of_le_of_ne (le_of_not_lt hlt) (fun hh => hab hh.symm)
              have key : List.filter (fun x => decide (x ∈ b :: bs)) (a :: as)
                  = List.filter (fun x => decide (x ∈ bs)) (a :: as) := by
                apply List.filter_congr
                intro x hx
                have hbx : b < x := by
                  rcases List.mem_cons.mp hx with hh | hh
                  · exact hh ▸ hba
                  · exact lt_trans hba (List.rel_of_sorted_cons h1 x hh)
                have hxb : ¬x = b := by
                  intro hh
                  subst hh
                  exact lt_irrefl x hbx
                simp [List.mem_cons, hxb]
              rw [key, ih2 h1 h2.of_cons]

theorem intersect_sorted {α : Type} [LinearOrder α] (l1 l2 : List α)
    (h1 : l1.Sorted (· < ·)) (h2 : l2.Sorted (· < ·)) :
    (intersect l1 l2).Sorted (· < ·) := by
  rw [intersect_eq_filter l1 l2 h1 h2]
  exact h1.filter _

theorem mem_intersect {α : Type} [LinearOrder α] (l1 l2 : List α)
    (h1 : l1.Sorted (· < ·)) (h2 : l2.Sorted (· < ·)) (x : α) :
    x ∈ intersect l1 l2 ↔ x ∈ l1 ∧ x ∈ l2 := by
  rw [intersect_eq_filter l1 l2 h1 h2]
  simp [List.mem_filter]

theorem mem_intersectFold {α : Type} [LinearOrder α] (ls : List (List α)) :
    ∀ res : List α, res.Sorted (· < ·) → (∀ l ∈ ls, l.Sorted (· < ·)) →
      ∀ x, x ∈ intersectFold res ls ↔ x ∈ res ∧ ∀ l ∈ ls, x ∈ l := by
  induction ls with
  | nil => intro res _ _ x; simp [intersectFold]
  | cons p rest ih =>
      intro res h1 hs x
      have hp : p.Sorted (· < ·) := hs p (List.mem_cons_self _ _)
      have hrest : ∀ l ∈ rest, l.Sorted (· < ·) := fun l hl => hs l (List.mem_cons_of_mem _ hl)
      have hr : (intersect res p).Sorted (· < ·) := intersect_sorted res p h1 hp
      simp only [intersectFold]
      by_cases hre : intersect res p = []
      · rw [if_pos hre]
        constructor
        · intro hx
          rw [hre] at hx
          simp at hx
        · rintro ⟨hx1, hx2⟩
          have hmem := (mem_intersect res p h1 hp x).2 ⟨hx1, hx2 p (List.mem_cons_self _ _)⟩
          rw [hre] at hmem
          simp at hmem
      · rw [if_neg hre]
        rw [ih (intersect res p) hr hrest x, mem_intersect res p h1 hp x]
        simp [List.forall_mem_cons, and_assoc]

theorem mem_chainAll {α : Type} [LinearOrder α] (L : List (List α))
    (hs : ∀ l ∈ L, l.Sorted (· < ·)) (x : α) :
    x ∈ chainAll L ↔ (L ≠ [] ∧ ∀ l ∈ L, x ∈ l) := by
  cases L with
  | nil => simp [chainAll]
  | cons l ls =>
      simp only [chainAll]
      rw [mem_intersectFold ls l (hs l (List.mem_cons_self _ _))
        (fun m hm => hs m (List.mem_cons_of_mem _ hm)) x]
      simp [List.forall_mem_cons]

/-- C4: for sorted duplicate-free lists the two-pointer `intersect`
returns exactly the sorted list of the elements common to both (stated as
the filter equation together with sortedness and the membership
characterization); `intersect` with an empty list on either side yields
the empty list for any list whatsoever; and the membership content of
chaining intersections across a family of sorted lists does not depend on
the order of the family. -/
theorem intersect_spec {α : Type} [LinearOrder α] (l1 l2 : List α)
    (h1 : l1.Sorted (· < ·)) (h2 : l2.Sorted (· < ·)) :
    (intersect l1 l2 = l1.filter (fun a => decide (a ∈ l2))
        ∧ (intersect l1 l2).Sorted (· < ·)
        ∧ (∀ x, x ∈ intersect l1 l2 ↔ x ∈ l1 ∧ x ∈ l2))
      ∧ (∀ l : List α, intersect l [] = [] ∧ intersect ([] : List α) l = [])
      ∧ (∀ L L' : List (List α), (∀ l ∈ L, l.Sorted (· < ·)) → L.Perm L' →
          ∀ x, (x ∈ chainAll L ↔ x ∈ chainAll L')) := by
  refine ⟨⟨intersect_eq_filter l1 l2 h1 h2, intersect_sorted l1 l2 h1 h2,
      mem_intersect l1 l2 h1 h2⟩,
    fun l => ⟨intersect_nil_right l, intersect_nil_left l⟩, ?_⟩
  intro L L' hs hp x
  have hs' : ∀ l ∈ L', l.Sorted (· < ·) := fun l hl => hs l (hp.symm.subset hl)
  rw [mem_chainAll L hs x, mem_chainAll L' hs' x]
  constructor
  · rintro ⟨hne, hall⟩
    refine ⟨?_, fun l hl => hall l (hp.symm.subset hl)⟩
    intro h0
    subst h0
    exact hne hp.eq_nil
  · rintro ⟨hne, hall⟩
    refine ⟨?_, fun l hl => hall l (hp.subset hl)⟩
    intro h0
    subst h0
    exact hne hp.symm.eq_nil

theorem intersect_spec_witness :
    intersect ([1, 2, 3] : List Nat) [2, 3, 4]
        = List.filter (fun a => decide (a ∈ ([2, 3, 4] : List Nat))) [1, 2, 3]
      ∧ intersect ([1, 2, 3] : List Nat) [] = [] := by
  have h := intersect_spec ([1, 2, 3] : List Nat) [2, 3, 4] (by decide) (by decide)
  exact ⟨h.1.1, (h.2.1 [1, 2, 3]).1⟩

/-! ### Wildcard-expansion lemmas (C3, C1) -/

theorem mem_expand_wildcard_of_star {pidx : List (List Char × List (List Char))}
    {term : List Char} {p : Nat} (hp : find_star term = some p) (t : List Char) :
    t ∈ expand_wildcard pidx term ↔
      ∃ kv ∈ pidx,
        startsWith kv.1
            (rstripStar ((term ++ ['$']).drop (p + 1) ++ (term ++ ['$']).take (p + 1)))
          = true
        ∧ t ∈ kv.2 := by
  simp only [expand_wildcard, hp]
  rw [mem_pliAux]
  simp only [List.not_mem_nil, not_false_iff, and_true]
  simp only [List.mem_flatten, List.mem_map, List.mem_filter]
  constructor
  · rintro ⟨l, ⟨kv, ⟨hkv, hsw⟩, rfl⟩, ht⟩
    exact ⟨kv, hkv, hsw, ht⟩
  · rintro ⟨kv, hkv, hsw, ht⟩
    exact ⟨kv.2, ⟨kv, ⟨hkv, hsw⟩, rfl⟩, ht⟩

theorem rotation_startsWith_iff {t A B : List Char} {i : Nat} (hi : i ≤ t.length)
    (ht : '$' ∉ t) (hB2 : '$' ∉ B) :
    startsWith (t.drop i ++ '$' :: t.take i) (B ++ '$' :: A) = true ↔
      (t.drop i = B ∧ ∃ u, t.take i = A ++ u) := by
  rw [startsWith_iff]
  constructor
  · rintro ⟨u, hu⟩
    have hu2 : t.drop i ++ '$' :: t.take i = B ++ '$' :: (A ++ u) := by
      rw [hu]; simp
    have hd : '$' ∉ t.drop i := fun hm => ht (List.mem_of_mem_drop hm)
    obtain ⟨e1, e2⟩ := append_sentinel_inj hd hB2 hu2
    exact ⟨e1, u, e2⟩
  · rintro ⟨e1, u, e2⟩
    refine ⟨u, ?_⟩
    rw [e1, e2]
    simp

theorem exists_rotation_startsWith_iff {t A B : List Char} (ht : '$' ∉ t)
    (hB2 : '$' ∉ B) :
    (∃ k ∈ generate_permuterms t, startsWith k (B ++ '$' :: A) = true) ↔
      (startsWith t A = true ∧ endsWith t B = true ∧ A.length + B.length ≤ t.length) := by
  constructor
  · rintro ⟨k, hk, hsw⟩
    obtain ⟨i, hi, rfl⟩ := mem_generate_permuterms.1 hk
    rw [rot_form hi] at hsw
    obtain ⟨e1, u, e2⟩ := (rotation_startsWith_iff hi ht hB2).1 hsw
    refine ⟨?_, ?_, ?_⟩
    · rw [startsWith_iff]
      refine ⟨u ++ B, ?_⟩
      calc t = t.take i ++ t.drop i := (List.take_append_drop i t).symm
        _ = (A ++ u) ++ B := by rw [e2, e1]
        _ = A ++ (u ++ B) := by simp
    · rw [endsWith_iff]
      refine ⟨t.take i, ?_⟩
      rw [← e1, List.take_append_drop]
    · have l1 : (t.drop i).length = B.length := by rw [e1]
      rw [List.length_drop] at l1
      have l2 : (t.take i).length = (A ++ u).length := by rw [e2]
      rw [List.length_take, List.length_append, min_eq_left hi] at l2
      omega
  · rintro ⟨hsA, hsB, hlen⟩
    obtain ⟨u1, hu1⟩ := (startsWith_iff t A).1 hsA
    obtain ⟨u2, hu2⟩ := (endsWith_iff t B).1 hsB
    have hi : t.length - B.length ≤ t.length := Nat.sub_le _ _
    have hu2len : u2.length = t.length - B.length := by
      have hl := congrArg List.length hu2
      rw [List.length_append] at hl
      omega
    have e1 : t.drop (t.length - B.length) = B := by
      have h0 : t.drop u2.length = B := by
        rw [hu2, List.drop_append_eq_append_drop, List.drop_length, Nat.sub_self]
        simp
      rw [hu2len] at h0
      exact h0
    have e2 : ∃ u, t.take (t.length - B.length) = A ++ u := by
      have hAi : A.length ≤ t.length - B.length := by omega
      refine ⟨u1.take (t.length - B.length - A.length), ?_⟩
      generalize hn : t.length - B.length = n at hAi ⊢
      rw [hu1, List.take_append_eq_append_take, List.take_of_length_le hAi]
    refine ⟨t.drop (t.length - B.length) ++ '$' :: t.take (t.length - B.length), ?_, ?_⟩
    · rw [mem_generate_permuterms]
      exact ⟨t.length - B.length, hi, (rot_form hi).symm⟩
    · exact (rotation_startsWith_iff hi ht hB2).2 ⟨e1, e2⟩

/-- C3: for every single-wildcard pattern `A*B` (`A`, `B` wildcard-free,
drawn from normalized query text, hence sentinel-free), over a permuterm
index that soundly and completely registers a set `R` of sentinel-free
terms, `expand_wildcard` returns exactly the registered terms that start
with `A`, end with `B` and have length at least `len A + len B` —
equivalently, the union of the term sets of every rotation key starting
with the prefix obtained by rotating `pattern ++ '$'` behind the `'*'` and
stripping the trailing `'*'`. -/
theorem expand_wildcard_single_star
    (pidx : List (List Char × List (List Char))) (R : List (List Char)) (A B : List Char)
    (hA : '*' ∉ A) (hB : '*' ∉ B) (hA2 : '$' ∉ A) (hB2 : '$' ∉ B)
    (hR : ∀ t ∈ R, '$' ∉ t)
    (hsound : ∀ kv ∈ pidx, ∀ t ∈ kv.2, t ∈ R ∧ kv.1 ∈ generate_permuterms t)
    (hcompl : ∀ t ∈ R, ∀ k ∈ generate_permuterms t, ∃ kv ∈ pidx, kv.1 = k ∧ t ∈ kv.2)
    (t : List Char) :
    t ∈ expand_wildcard pidx (A ++ '*' :: B) ↔
      (t ∈ R ∧ startsWith t A = true ∧ endsWith t B = true
        ∧ A.length + B.length ≤ t.length) := by
  have hp := find_star_pattern B hA
  have hsplit : (A ++ '*' :: B) ++ ['$'] = (A ++ ['*']) ++ (B ++ ['$']) := by simp
  have hlenA : A.length + 1 = (A ++ ['*']).length := by simp
  have hdrop : ((A ++ '*' :: B) ++ ['$']).drop (A.length + 1) = B ++ ['$'] := by
    rw [hsplit, hlenA, List.drop_left]
  have htake : ((A ++ '*' :: B) ++ ['$']).take (A.length + 1) = A ++ ['*'] := by
    rw [hsplit, hlenA, List.take_left]
  have hs : rstripStar (((A ++ '*' :: B) ++ ['$']).drop (A.length + 1)
      ++ ((A ++ '*' :: B) ++ ['$']).take (A.length + 1)) = B ++ '$' :: A := by
    rw [hdrop, htake]
    have hrot : (B ++ ['$']) ++ (A ++ ['*']) = (B ++ '$' :: A) ++ ['*'] := by simp
    rw [hrot, rstripStar_append_star, rstripStar_no_trailing B hA]
  rw [mem_expand_wildcard_of_star hp t, hs]
  constructor
  · rintro ⟨kv, hkv, hsw, ht⟩
    obtain ⟨htR, hgen⟩ := hsound kv hkv t ht
    have hcond := (exists_rotation_startsWith_iff (hR t htR) hB2).1 ⟨kv.1, hgen, hsw⟩
    exact ⟨htR, hcond⟩
  · rintro ⟨htR, hcond⟩
    obtain ⟨k, hk, hsw⟩ := (exists_rotation_startsWith_iff (hR t htR) hB2).2 hcond
    obtain ⟨kv, hkv, hkeq, htv⟩ := hcompl t htR k hk
    exact ⟨kv, hkv, by rw [hkeq]; exact hsw, htv⟩

/-- C1 (amended): a pattern containing two or more `'*'` is not rejected —
`expand_wildcard` silently rotates at the first `'*'`, the remaining `'*'`
survives into the search prefix, and since no registered rotation key
contains `'*'` the expansion is empty, so the query falls through to an
ordinary empty result instead of an InvalidQuery signal. -/
theorem expand_wildcard_two_stars (pidx : List (List Char × List (List Char)))
    (term : List Char) (hkeys : ∀ kv ∈ pidx, '*' ∉ kv.1)
    (h2 : 2 ≤ term.count '*') :
    expand_wildcard pidx term = [] := by
  have hmem : '*' ∈ term := by
    by_contra hn
    rw [List.count_eq_zero_of_not_mem hn] at h2
    omega
  obtain ⟨p, hp⟩ := find_star_of_mem hmem
  obtain ⟨a, b, hterm, ha, halen⟩ := find_star_some hp
  subst hterm
  subst halen
  have hbstar : '*' ∈ b := by
    rw [List.count_append, List.count_cons] at h2
    rw [List.count_eq_zero_of_not_mem ha] at h2
    simp only [beq_self_eq_true, if_true] at h2
    have hcb : 1 ≤ b.count '*' := by omega
    exact List.count_pos_iff.1 hcb
  have hsplit : (a ++ '*' :: b) ++ ['$'] = (a ++ ['*']) ++ (b ++ ['$']) := by simp
  have hlenA : a.length + 1 = (a ++ ['*']).length := by simp
  have hdrop : ((a ++ '*' :: b) ++ ['$']).drop (a.length + 1) = b ++ ['$'] := by
    rw [hsplit, hlenA, List.drop_left]
  have htake : ((a ++ '*' :: b) ++ ['$']).take (a.length + 1) = a ++ ['*'] := by
    rw [hsplit, hlenA, List.take_left]
  have hstar : '*' ∈ rstripStar (((a ++ '*' :: b) ++ ['$']).drop (a.length + 1)
      ++ ((a ++ '*' :: b) ++ ['$']).take (a.length + 1)) := by
    rw [hdrop, htake]
    have hrot : (b ++ ['$']) ++ (a ++ ['*']) = b ++ '$' :: (a ++ ['*']) := by simp
    rw [hrot]
    exact star_mem_rstripStar (a ++ ['*']) hbstar
  simp only [expand_wildcard, hp]
  have hfil : pidx.filter (fun kv =>
      startsWith kv.1 (rstripStar (((a ++ '*' :: b) ++ ['$']).drop (a.length + 1)
        ++ ((a ++ '*' :: b) ++ ['$']).take (a.length + 1)))) = [] := by
    rw [List.filter_eq_nil_iff]
    intro kv hkv hsw
    exact hkeys kv hkv (mem_of_startsWith hsw hstar)
  rw [hfil]
  simp [pliAux]

/-! ### Query-pipeline lemmas (C2, C8, C10) -/

theorem gatherOne_ne_none {δ : Type} [LinearOrder δ] (idx : Index δ)
    (hwf : ∀ e ∈ idx.dictionary, lookupA idx.postings_lists e.2.2.2 ≠ none) :
    ∀ g : List (List Char), gatherOne idx g ≠ none := by
  intro g
  induction g with
  | nil => simp [gatherOne]
  | cons t rest ih =>
      cases hd : lookupA idx.dictionary t with
      | none => simpa only [gatherOne, hd] using ih
      | some td =>
          have hp := hwf (t, td) (lookupA_mem hd)
          cases hpl : lookupA idx.postings_lists td.2.2 with
          | none => exact absurd hpl hp
          | some chain =>
              cases hg : gatherOne idx rest with
              | none => exact absurd hg ih
              | some acc => simp [gatherOne, hd, hpl, hg]

theorem queryLoop_missing {δ : Type} [LinearOrder δ] (idx : Index δ)
    (hwf : ∀ e ∈ idx.dictionary, lookupA idx.postings_lists e.2.2.2 ≠ none) :
    ∀ (groups : List (List (List Char))) (t : List Char),
      [t] ∈ groups → lookupA idx.dictionary t = none →
      queryLoop idx groups = some none := by
  intro groups
  induction groups with
  | nil => intro t h _; simp at h
  | cons g rest ih =>
      intro t hmem hnone
      rcases List.mem_cons.mp hmem with hg | hg
      · subst hg
        have h1 : gatherOne idx [t] = some [] := by
          simp [gatherOne, hnone]
        simp [queryLoop, h1]
      · cases hg1 : gatherOne idx g with
        | none => exact absurd hg1 (gatherOne_ne_none idx hwf g)
        | some raw =>
            by_cases hraw : raw = []
            · simp [queryLoop, hg1, hraw]
            · have h2 := ih t hg hnone
              simp [queryLoop, hg1, hraw, h2]

theorem expandAll_literal_group {pidx : List (List Char × List (List Char))} :
    ∀ (nts : List (List Char)) (groups : List (List (List Char))),
      expandAll pidx nts = some groups →
      ∀ t ∈ nts, '*' ∉ t → [t] ∈ groups := by
  intro nts
  induction nts with
  | nil => intro groups _ t ht _; simp at ht
  | cons n rest ih =>
      intro groups h t ht hstar
      rcases List.mem_cons.mp ht with h1 | h1
      · subst h1
        rw [expandAll, if_neg hstar] at h
        cases he : expandAll pidx rest with
        | none => rw [he] at h; simp at h
        | some gs =>
            rw [he] at h
            simp only [Option.some.injEq] at h
            subst h
            exact List.mem_cons_self _ _
      · rw [expandAll] at h
        by_cases hn : '*' ∈ n
        · rw [if_pos hn] at h
          by_cases he0 : expand_wildcard pidx n = []
          · rw [if_pos he0] at h
            simp at h
          · rw [if_neg he0] at h
            cases he : expandAll pidx rest with
            | none => rw [he] at h; simp at h
            | some gs =>
                rw [he] at h
                simp only [Option.some.injEq] at h
                subst h
                exact List.mem_cons_of_mem _ (ih gs he t h1 hstar)
        · rw [if_neg hn] at h
          cases he : expandAll pidx rest with
          | none => rw [he] at h; simp at h
          | some gs =>
              rw [he] at h
              simp only [Option.some.injEq] at h
              subst h
              exact List.mem_cons_of_mem _ (ih gs he t h1 hstar)

theorem query_missing_literal {δ : Type} [LinearOrder δ] (idx : Index δ)
    (terms : List (List Char))
    (hwf : ∀ e ∈ idx.dictionary, lookupA idx.postings_lists e.2.2.2 ≠ none)
    (hm : ∃ raw ∈ terms, '*' ∉ normalize raw true
        ∧ lookupA idx.dictionary (normalize raw true) = none) :
    query idx terms = some [] := by
  obtain ⟨raw, hraw, hstar, hnone⟩ := hm
  have hmem : normalize raw true ∈ terms.map (fun t => normalize t true) :=
    List.mem_map.mpr ⟨raw, hraw, rfl⟩
  simp only [query]
  cases he : expandAll idx.permuterm_index (terms.map (fun t => normalize t true)) with
  | none => simp
  | some groups =>
      have hg := expandAll_literal_group (terms.map (fun t => normalize t true)) groups he
        (normalize raw true) hmem hstar
      have hq := queryLoop_missing idx hwf groups (normalize raw true) hg hnone
      simp [hq]

/-! ### Build-phase well-formedness (C8, C10) -/

/-- Every dictionary entry of a reachable index has a non-empty term key
and a postings pointer that resolves in `postings_lists`. -/
def WFIndex {δ : Type} [DecidableEq δ] (idx : Index δ) : Prop :=
  ∀ e ∈ idx.dictionary, e.1 ≠ [] ∧ lookupA idx.postings_lists e.2.2.2 ≠ none

theorem wf_empty (δ : Type) [DecidableEq δ] : WFIndex (emptyIndex δ) := by
  intro e he
  simp [emptyIndex] at he

theorem wf_ensureTerm {δ : Type} [DecidableEq δ] (idx : Index δ) (term : List Char)
    (pidx : List (List Char × List (List Char))) (h : WFIndex idx) (hterm : term ≠ []) :
    WFIndex (ensureTerm idx term pidx) := by
  cases hd : lookupA idx.dictionary term with
  | some td =>
      simp only [ensureTerm, hd]
      intro e he
      exact h e he
  | none =>
      simp only [ensureTerm, hd]
      intro e he
      rcases mem_updateA he with he1 | he1
      · subst he1
        refine ⟨hterm, ?_⟩
        show lookupA (updateA idx.postings_lists idx.posting_id_counter [])
          idx.posting_id_counter ≠ none
        rw [lookupA_updateA_self]
        simp
      · obtain ⟨h1, h2⟩ := h e he1
        refine ⟨h1, ?_⟩
        show lookupA (updateA idx.postings_lists idx.posting_id_counter []) e.2.2.2 ≠ none
        by_cases hp : e.2.2.2 = idx.posting_id_counter
        · rw [hp, lookupA_updateA_self]
          simp
        · rw [lookupA_updateA_ne _ _ _ _ hp]
          exact h2

theorem wf_pushPosting {δ : Type} [DecidableEq δ] (idx1 : Index δ) (term : List Char)
    (docID : δ) (h : WFIndex idx1) (hterm : term ≠ []) :
    WFIndex (pushPosting idx1 term docID) := by
  cases hd : lookupA idx1.dictionary term with
  | none => simp only [pushPosting, hd]; exact h
  | some td =>
      cases hpl : lookupA idx1.postings_lists td.2.2 with
      | none => simp only [pushPosting, hd, hpl]; exact h
      | some current =>
          simp only [pushPosting, hd, hpl]
          by_cases hc : current = [] ∨ current.head? ≠ some docID
          · rw [if_pos hc]
            intro e he
            rcases mem_updateA he with he1 | he1
            · subst he1
              refine ⟨hterm, ?_⟩
              show lookupA (updateA idx1.postings_lists td.2.2 (docID :: current))
                td.2.2 ≠ none
              rw [lookupA_updateA_self]
              simp
            · obtain ⟨h1, h2⟩ := h e he1
              refine ⟨h1, ?_⟩
              show lookupA (updateA idx1.postings_lists td.2.2 (docID :: current))
                e.2.2.2 ≠ none
              by_cases hp : e.2.2.2 = td.2.2
              · rw [hp, lookupA_updateA_self]
                simp
              · rw [lookupA_updateA_ne _ _ _ _ hp]
                exact h2
          · rw [if_neg hc]
            exact h

theorem wf_indexToken {δ : Type} [DecidableEq δ] (idx : Index δ) (docID : δ)
    (tok : List Char) (h : WFIndex idx) : WFIndex (indexToken idx docID tok) := by
  by_cases ht : normalize tok false = []
  · simp only [indexToken]
    rw [if_pos ht]
    exact h
  · simp only [indexToken]
    rw [if_neg ht]
    exact wf_pushPosting _ _ _ (wf_ensureTerm _ _ _ h ht) ht

theorem wf_addDocument {δ : Type} [DecidableEq δ] (tokens : List (List Char)) :
    ∀ (idx : Index δ) (docID : δ), WFIndex idx → WFIndex (addDocument idx docID tokens) := by
  induction tokens with
  | nil => intro idx d h; exact h
  | cons tok rest ih =>
      intro idx d h
      simp only [addDocument, List.foldl_cons]
      exact ih (indexToken idx d tok) d (wf_indexToken idx d tok h)

theorem wf_buildFold {δ : Type} [DecidableEq δ] (docs : List (δ × List (List Char))) :
    ∀ idx : Index δ, WFIndex idx →
      WFIndex (docs.foldl (fun i doc => addDocument i doc.1 doc.2) idx) := by
  induction docs with
  | nil => intro idx h; exact h
  | cons doc rest ih =>
      intro idx h
      simp only [List.foldl_cons]
      exact ih (addDocument idx doc.1 doc.2) (wf_addDocument doc.2 idx doc.1 h)

theorem wf_buildIndex {δ : Type} [DecidableEq δ] (docs : List (δ × List (List Char))) :
    WFIndex (buildIndex docs) :=
  wf_buildFold docs (emptyIndex δ) (wf_empty δ)

theorem buildIndex_no_empty_term {δ : Type} [DecidableEq δ]
    (docs : List (δ × List (List Char))) :
    lookupA (buildIndex docs).dictionary ([] : List Char) = none :=
  lookupA_eq_none (fun e he => (wf_buildIndex docs e he).1)

/-! ### Claim theorems on the query pipeline -/

/-- C2 (amended): a zero-term query is not rejected with an InvalidQuery
signal — on every index state it raises an unhandled IndexError
(`postings_lists[0]` applied to the empty list of gathered postings
lists), modelled here as the `none` outcome. -/
theorem query_empty_crashes {δ : Type} [LinearOrder δ] (idx : Index δ) :
    query idx [] = none := rfl

/-- C8 (amended): a literal (non-wildcard) query term absent from the
dictionary is non-fatal and the final result is the empty list; but the
condition is not reported as a structured outcome — the value returned is
the very same plain empty list that a legitimate empty intersection
produces (and `assignment_1.py` reports it only by an unconditional
console print). -/
theorem query_term_not_found {δ : Type} [LinearOrder δ] (idx : Index δ)
    (terms : List (List Char))
    (hwf : ∀ e ∈ idx.dictionary, lookupA idx.postings_lists e.2.2.2 ≠ none)
    (hm : ∃ raw ∈ terms, '*' ∉ normalize raw true
        ∧ lookupA idx.dictionary (normalize raw true) = none) :
    query idx terms = some [] :=
  query_missing_literal idx terms hwf hm

/-- C10: if some query token normalizes to the empty string, the query
returns the empty list on any index produced by the build phase: the build
skips empty terms, so the empty literal is absent from the dictionary and
its postings union is empty. -/
theorem query_empty_token {δ : Type} [LinearOrder δ] (docs : List (δ × List (List Char)))
    (terms : List (List Char)) (hm : ∃ raw ∈ terms, normalize raw true = []) :
    lookupA (buildIndex docs).dictionary ([] : List Char) = none
      ∧ query (buildIndex docs) terms = some [] := by
  refine ⟨buildIndex_no_empty_term docs, ?_⟩
  apply query_missing_literal
  · intro e he
    exact (wf_buildIndex docs e he).2
  · obtain ⟨raw, hraw, hn⟩ := hm
    refine ⟨raw, hraw, ?_, ?_⟩
    · rw [hn]; simp
    · rw [hn]; exact buildIndex_no_empty_term docs

/-! ### Concrete corpora for witnesses and counterexamples -/

set_option maxRecDepth 1000000

/-- Tiny corpus: "effect" in document 1, "effects" in document 2. -/
def c1Docs : List (Nat × List (List Char)) := [(1, [toL "effect"]), (2, [toL "effects"])]

def c1Idx : Index Nat := buildIndex c1Docs

def c2Idx : Index Nat := buildIndex [((7 : Nat), [toL "hello"])]

def c8Idx : Index Nat := buildIndex [((1 : Nat), [toL "apple"]), (2, [toL "pear"])]

def c3Idx : Index Nat :=
  buildIndex [((1 : Nat), [toL "effect"]), (2, [toL "effects"]), (3, [toL "vaccine"])]

def c3Terms : List (List Char) := [toL "effect", toL "effects", toL "vaccine"]

def c10Docs : List (Nat × List (List Char)) := [((4 : Nat), [toL "word"])]

/-- C1 counterexample: on a concrete index the two-star pattern `*ffect*`
is not rejected with any InvalidQuery signal — expansion evaluates to the
plain empty list and the query falls through to the ordinary empty result
`some []`. -/
theorem expand_wildcard_two_stars_counterexample :
    expand_wildcard c1Idx.permuterm_index (toL "*ffect*") = []
      ∧ query c1Idx [toL "*ffect*"] = some [] := by
  constructor
  · decide
  · decide

theorem expand_wildcard_two_stars_witness :
    expand_wildcard c1Idx.permuterm_index (toL "a*b*") = [] :=
  expand_wildcard_two_stars c1Idx.permuterm_index (toL "a*b*") (by decide) (by decide)

/-- C2 counterexample: on a concrete built index, the zero-term query
produces the unhandled-exception outcome (`none`), not an InvalidQuery
signal and not a legitimate empty result. -/
theorem query_empty_counterexample : query c2Idx [] = none := rfl

theorem query_empty_crashes_witness : query (emptyIndex Nat) [] = none :=
  query_empty_crashes (emptyIndex Nat)

theorem expand_wildcard_single_star_witness :
    toL "effect" ∈ expand_wildcard c3Idx.permuterm_index (toL "*ffect")
      ∧ toL "effects" ∉ expand_wildcard c3Idx.permuterm_index (toL "*ffect") := by
  have h := expand_wildcard_single_star c3Idx.permuterm_index c3Terms [] (toL "ffect")
    (by decide) (by decide) (by decide) (by decide) (by decide) (by decide) (by decide)
  have hpat : ([] : List Char) ++ '*' :: toL "ffect" = toL "*ffect" := by decide
  rw [hpat] at h
  constructor
  · exact (h (toL "effect")).mpr (by decide)
  · intro hc
    have h2 := (h (toL "effects")).mp hc
    exact absurd h2.2.2.1 (by decide)

/-- C8 counterexample: the outcome of a query with a missing literal term
is the very same value as the outcome of a query whose terms are all
present but share no document — a plain `some []`, with no structured
signal distinguishing the two. -/
theorem query_term_not_found_counterexample :
    query c8Idx [toL "banana"] = query c8Idx [toL "apple", toL "pear"]
      ∧ query c8Idx [toL "banana"] = some [] := by
  have h1 : query c8Idx [toL "banana"] = some [] := by decide
  have he : expandAll c8Idx.permuterm_index
      (List.map (fun t => normalize t true) [toL "apple", toL "pear"])
      = some [[toL "apple"], [toL "pear"]] := by decide
  have hq : queryLoop c8Idx [[toL "apple"], [toL "pear"]]
      = some (some [[1], [2]]) := by decide
  have hi : intersect ([1] : List Nat) [2] = [] := by
    rw [intersect_cons_cons, if_neg (by decide), if_pos (by decide), intersect_nil_left]
  have h2 : query c8Idx [toL "apple", toL "pear"] = some [] := by
    simp only [query, he, hq]
    simp only [intersectFold, hi]
    simp
  rw [h1, h2]
  exact ⟨rfl, rfl⟩

theorem query_term_not_found_witness : query c8Idx [toL "banana"] = some [] :=
  query_term_not_found c8Idx [toL "banana"] (by decide) (by decide)

theorem query_empty_token_witness :
    query (buildIndex c10Docs) [toL "word", toL "..."] = some [] :=
  (query_empty_token c10Docs [toL "word", toL "..."] (by decide)).2

end InvertedIndex
